import Mathlib

/-!
Verification of the Diffie-Hellman simulator (src/app.js) against its
natural-language specification.

The JavaScript source works on BigInt values, which we embed as Nat (all
run-time values in the program are non-negative) except where a negative
base can reach a function, in which case we use Int together with
JavaScript truncated remainder, which is Int.tmod.

Loops are embedded either by well-founded recursion with the same guard as
the source, or, where a kernel evaluation of large instances is needed, by
structural recursion on an explicit fuel argument whose value at the call
site dominates the number of iterations the source loop performs.
-/

/-! ### BigIntMath: modPow (src/app.js lines 51-62)

The JS loop is
  while (e > 0n) { if (e & 1n) result = (result * b) % mod; e >>= 1n; b = (b * b) % mod; }
The fuel argument is instantiated with the exponent itself, which dominates
the number of iterations (the exponent is halved each time round the loop).
-/

def modPowAux (fuel : Nat) (result b e m : Nat) : Nat :=
  match fuel with
  | 0 => result
  | fuel + 1 =>
    if e = 0 then result
    else modPowAux fuel (if e % 2 = 1 then result * b % m else result) (b * b % m) (e / 2) m

/-- Embedding of modPow.  The base is an Int because the source documents
support for negative bases; the normalization line
  let b = ((base % mod) + mod) % mod;
uses the JavaScript truncated remainder, i.e. Int.tmod. -/
def modPow (base : Int) (exp : Nat) (mod : Nat) : Nat :=
  if mod = 1 then 0
  else
    let b := ((base.tmod mod + mod).tmod mod).toNat
    modPowAux exp 1 b exp mod

/-! Correctness development for modPow. -/

lemma tmod_norm (a : Int) (m : Nat) (hm : 0 < m) :
    (a.tmod (m : Int) + (m : Int)).tmod (m : Int) = a % (m : Int) := by
  have hb : (0 : Int) < (m : Int) := by exact_mod_cast hm
  have hlow : -(m : Int) < a.tmod (m : Int) := by
    rcases le_or_lt 0 a with ha | ha
    · have h0 := Int.tmod_nonneg (m : Int) ha
      linarith
    · have h1 : (-a).tmod (m : Int) < (m : Int) := Int.tmod_lt_of_pos (-a) hb
      have h2 : (-a).tmod (m : Int) = -(a.tmod (m : Int)) := by
        rw [Int.tmod_def, Int.tmod_def, Int.neg_tdiv]; ring
      linarith
  have hnn : 0 ≤ a.tmod (m : Int) + (m : Int) := by linarith
  rw [Int.tmod_eq_emod hnn (le_of_lt hb), Int.add_emod_self, Int.tmod_def]
  have h3 : a - (m : Int) * a.tdiv (m : Int) = a + (m : Int) * (-(a.tdiv (m : Int))) := by ring
  rw [h3, Int.add_mul_emod_self_left]

lemma modPowAux_eq (fuel : Nat) :
    ∀ r b e m : Nat, e ≤ fuel → 0 < m → r < m → b < m →
    modPowAux fuel r b e m = r * b ^ e % m := by
  induction fuel with
  | zero =>
    intro r b e m hf hm hr _
    have he : e = 0 := Nat.le_zero.mp hf
    subst he
    simp [modPowAux, Nat.mod_eq_of_lt hr]
  | succ fuel ih =>
    intro r b e m hf hm hr hb
    by_cases he : e = 0
    · subst he
      simp [modPowAux, Nat.mod_eq_of_lt hr]
    · have he1 : 1 ≤ e := Nat.one_le_iff_ne_zero.mpr he
      have hstep : e / 2 ≤ fuel := by
        have : e / 2 < e := Nat.div_lt_self he1 (by omega)
        omega
      have hr2 : (if e % 2 = 1 then r * b % m else r) < m := by
        split
        · exact Nat.mod_lt _ hm
        · exact hr
      have hb2 : b * b % m < m := Nat.mod_lt _ hm
      have hrec := ih (if e % 2 = 1 then r * b % m else r) (b * b % m) (e / 2) m hstep hm hr2 hb2
      show modPowAux (fuel + 1) r b e m = r * b ^ e % m
      rw [show modPowAux (fuel + 1) r b e m
            = modPowAux fuel (if e % 2 = 1 then r * b % m else r) (b * b % m) (e / 2) m by
          simp [modPowAux, he]]
      rw [hrec]
      have h1 : (if e % 2 = 1 then r * b % m else r) ≡ r * b ^ (e % 2) [MOD m] := by
        rcases Nat.mod_two_eq_zero_or_one e with h | h
        · simp only [h, pow_zero, mul_one]
          exact Nat.ModEq.refl r
        · simp only [h, if_pos rfl, pow_one]
          exact Nat.mod_modEq (r * b) m
      have h2 : (b * b % m) ^ (e / 2) ≡ (b * b) ^ (e / 2) [MOD m] :=
        Nat.ModEq.pow _ (Nat.mod_modEq _ _)
      have h3 : (if e % 2 = 1 then r * b % m else r) * (b * b % m) ^ (e / 2)
          ≡ r * b ^ (e % 2) * (b * b) ^ (e / 2) [MOD m] := h1.mul h2
      have h4 : r * b ^ (e % 2) * (b * b) ^ (e / 2) = r * b ^ e := by
        rw [show b * b = b ^ 2 by ring, ← pow_mul, mul_assoc, ← pow_add]
        congr 2
        omega
      rw [h4] at h3
      exact h3

lemma modPow_nat (g e m : Nat) (hm : 0 < m) : modPow (g : Int) e m = g ^ e % m := by
  unfold modPow
  by_cases h1 : m = 1
  · subst h1; simp [Nat.mod_one]
  · rw [if_neg h1]
    have hnorm : ((g : Int).tmod (m : Int) + (m : Int)).tmod (m : Int) = ((g % m : Nat) : Int) := by
      rw [tmod_norm _ _ hm]
      exact (Int.ofNat_emod g m).symm
    rw [hnorm]
    simp only [Int.toNat_ofNat]
    rw [modPowAux_eq e 1 (g % m) e m (le_refl e) hm (by omega) (Nat.mod_lt _ hm)]
    rw [one_mul, ← Nat.pow_mod]

/-- The two-sided exponentiation identity used by the shared-secret steps:
for any modulus at least 1, modPow(modPow(g,a,p), b, p) = modPow(modPow(g,b,p), a, p). -/
lemma modPow_modPow_comm (g a b p : Nat) (hp : 0 < p) :
    modPow (modPow (g : Int) a p : Nat) b p = modPow (modPow (g : Int) b p : Nat) a p := by
  rw [modPow_nat _ _ _ hp, modPow_nat _ _ _ hp, modPow_nat _ _ _ hp, modPow_nat _ _ _ hp]
  rw [← Nat.pow_mod, ← Nat.pow_mod, ← pow_mul, ← pow_mul, mul_comm]

/-- C6: for modulus at least 1, modPow computes base ^ exponent mod modulus
(stated over Int so that negative bases are covered); it returns 0 when the
modulus is 1; and the initial normalization means any base is interchangeable
with its residue in [0, modulus). -/
theorem modPow_spec (base : Int) (exp m : Nat) (hm : 1 ≤ m) :
    ((modPow base exp m : Nat) : Int) = base ^ exp % (m : Int)
    ∧ modPow base exp 1 = 0
    ∧ modPow base exp m = modPow (base % (m : Int)) exp m := by
  have hm0 : 0 < m := hm
  have hmZ : (0 : Int) < (m : Int) := by exact_mod_cast hm0
  refine ⟨?_, by simp [modPow], ?_⟩
  · by_cases h1 : m = 1
    · subst h1; simp [modPow, Int.emod_one]
    · have hnn : 0 ≤ base % (m : Int) := Int.emod_nonneg base (by omega)
      have hlt : base % (m : Int) < (m : Int) := Int.emod_lt_of_pos base hmZ
      set n0 : Nat := (base % (m : Int)).toNat with hn0
      have hcast : ((n0 : Nat) : Int) = base % (m : Int) := Int.toNat_of_nonneg hnn
      have hlt' : n0 < m := by omega
      have hmain : modPow base exp m = n0 ^ exp % m := by
        unfold modPow
        rw [if_neg h1, tmod_norm _ _ hm0]
        rw [show (base % (m : Int)).toNat = n0 from rfl]
        rw [modPowAux_eq exp 1 n0 exp m (le_refl exp) hm0 (by omega) hlt']
        rw [one_mul]
      rw [hmain]
      rw [show ((n0 ^ exp % m : Nat) : Int) = ((n0 : Int)) ^ exp % (m : Int) by push_cast; ring_nf]
      rw [hcast]
      have hme : Int.ModEq (m : Int) (base % (m : Int)) base := Int.emod_emod_of_dvd base dvd_rfl
      exact hme.pow exp
  · unfold modPow
    by_cases h1 : m = 1
    · simp [h1]
    · rw [if_neg h1, if_neg h1]
      rw [tmod_norm base m hm0, tmod_norm (base % (m : Int)) m hm0]
      rw [Int.emod_emod_of_dvd base dvd_rfl]

/-- Witness for modPow_spec at base -7, exponent 5, modulus 3:
modPow normalizes -7 to 2 and computes 2^5 mod 3 = 2. -/
theorem modPow_spec_witness :
    ((modPow (-7) 5 3 : Nat) : Int) = (-7) ^ 5 % (3 : Int)
    ∧ modPow (-7) 5 1 = 0
    ∧ modPow (-7) 5 3 = modPow ((-7) % (3 : Int)) 5 3 :=
  modPow_spec (-7) 5 3 (by omega)

/-! ### PrimalityOracle: isProbablePrime (src/app.js lines 65-94)

Trial division against the small primes 2..37, then Miller-Rabin with the
fixed base set {2,3,5,7,11,13,17}.  The JS for-loop over smallPrimes
returns at the first p with n === p or n % p === 0n, and the value returned
there is n === p; List.find? captures exactly that.  The d-halving loop and
the r-squaring loop are embedded structurally.
-/

def smallPrimes : List Nat := [2, 3, 5, 7, 11, 13, 17, 19, 23, 29, 31, 37]

def mrBases : List Nat := [2, 3, 5, 7, 11, 13, 17]

def oddPartAux : Nat → Nat → Nat → Nat × Nat
  | 0, d, s => (d, s)
  | fuel + 1, d, s => if d % 2 = 0 then oddPartAux fuel (d / 2) (s + 1) else (d, s)

/-- Write n - 1 = d * 2 ^ s with d odd (the while loop at line 75).
Fuel d dominates the number of halvings. -/
def oddPart (d : Nat) : Nat × Nat := oddPartAux d d 0

def mrLoop (x n : Nat) : Nat → Bool
  | 0 => false
  | t + 1 =>
    let x2 := x * x % n
    if x2 = n - 1 then true else mrLoop x2 n t

/-- The inner witness check (function check(a) at lines 77-86). The squaring
loop runs for r = 1 .. s-1, i.e. s - 1 iterations. -/
def mrCheck (a n d s : Nat) : Bool :=
  if a % n = 0 then true
  else
    let x := modPow (a : Int) d n
    if x = 1 ∨ x = n - 1 then true
    else mrLoop x n (s - 1)

def isProbablePrime (n : Nat) : Bool :=
  if n < 2 then false
  else
    match smallPrimes.find? (fun p => n == p || n % p == 0) with
    | some p => n == p
    | none =>
      let ds := oddPart (n - 1)
      mrBases.all (fun a => mrCheck a n ds.1 ds.2)

/-- C2 (code_bug evidence): 341550071728321 = 10670053 * 32010157 is composite,
yet it is below 2^64 and isProbablePrime accepts it: the fixed witness set
{2,3,5,7,11,13,17} is only deterministic up to 3.4 * 10^14, not up to 2^64,
contradicting the comment in the source (lines 64, 88, 93) and the spec. -/
theorem isProbablePrime_false_positive :
    isProbablePrime 341550071728321 = true
    ∧ 341550071728321 = 10670053 * 32010157
    ∧ ¬ Nat.Prime 341550071728321 := by
  refine ⟨by decide, by decide, ?_⟩
  intro hpr
  have hdvd : (10670053 : Nat) ∣ 341550071728321 := ⟨32010157, by decide⟩
  rcases (Nat.Prime.eq_one_or_self_of_dvd hpr 10670053 hdvd) with h | h
  · exact absurd h (by decide)
  · exact absurd h (by decide)

/-! ### Input parsing and validation (src/app.js lines 39-48, 186-213)

parseBigIntDec trims the string, tests it against the regex [0-9]+ and
converts the decimal digits; after the regex has matched, the BigInt
conversion cannot throw, so the only error message reachable for
well-formed strings is the non-decimal one.  We work character-wise on
String.data so that every step is structural recursion the kernel can
evaluate; jsTrim matches String.prototype.trim on the whitespace that can
actually occur in the fields.
-/

def jsTrim (s : List Char) : List Char :=
  ((s.dropWhile (fun c => c.isWhitespace)).reverse.dropWhile (fun c => c.isWhitespace)).reverse

def parseBigIntDec (str : String) : Except String Nat :=
  let s := jsTrim str.data
  if s ≠ [] ∧ s.all (fun c => c.isDigit) then
    Except.ok (s.foldl (fun acc c => acc * 10 + (c.toNat - '0'.toNat)) 0)
  else Except.error "Masukkan hanya angka desimal."

/-- The four raw text fields (p, g, a, b). -/
structure Inputs where
  pStr : String
  gStr : String
  aStr : String
  bStr : String
deriving DecidableEq

def readInputs (inp : Inputs) : Except String (Nat × Nat × Nat × Nat) :=
  match parseBigIntDec inp.pStr with
  | Except.error e => Except.error ("p: " ++ e)
  | Except.ok pV =>
  match parseBigIntDec inp.gStr with
  | Except.error e => Except.error ("g: " ++ e)
  | Except.ok gV =>
  match parseBigIntDec inp.aStr with
  | Except.error e => Except.error ("a: " ++ e)
  | Except.ok aV =>
  match parseBigIntDec inp.bStr with
  | Except.error e => Except.error ("b: " ++ e)
  | Except.ok bV => Except.ok (pV, gV, aV, bV)

/-- The module-level mutable state of the app: step cursor, parameter
quadruple, the four Derived Values (null embedded as none), and the
message box text. -/
@[ext]
structure Session where
  stepIdx : Nat
  p : Nat
  g : Nat
  a : Nat
  b : Nat
  A : Option Nat
  B : Option Nat
  sAlice : Option Nat
  sBob : Option Nat
  msg : String
deriving DecidableEq

def TOTAL_STEPS : Nat := 9

/-- validateParams (lines 198-213): on failure it reports a constraint
specific message (when showMsgs) and leaves the quadruple alone; on success
it stores the parsed quadruple. -/
def validateParams (showMsgs : Bool) (inp : Inputs) (s : Session) : Bool × Session :=
  match readInputs inp with
  | Except.error e => (false, if showMsgs then { s with msg := e } else s)
  | Except.ok (P, G, Asec, Bsec) =>
    if P < 3 then (false, if showMsgs then { s with msg := "p harus >= 3." } else s)
    else if !isProbablePrime P then
      (false, if showMsgs then { s with msg := "p tampaknya bukan prima." } else s)
    else if G ≤ 1 ∨ P ≤ G then
      (false, if showMsgs then { s with msg := "g harus dalam rentang 2 .. p-1." } else s)
    else if Asec < 2 ∨ P - 1 ≤ Asec then
      (false, if showMsgs then { s with msg := "a harus dalam rentang 2 .. p-2." } else s)
    else if Bsec < 2 ∨ P - 1 ≤ Bsec then
      (false, if showMsgs then { s with msg := "b harus dalam rentang 2 .. p-2." } else s)
    else (true, { s with p := P, g := G, a := Asec, b := Bsec,
                         msg := if showMsgs then "Parameter valid." else s.msg })

/-! ### ExchangeStepper (src/app.js lines 346-390) -/

/-- The switch body of nextStep after the cursor guard: increment the
cursor, then compute the Derived Value owned by the entered step.  Steps 7
and 8 defensively compute B and A first when they are still null. -/
def advanceCore (s : Session) : Session :=
  if TOTAL_STEPS ≤ s.stepIdx then s
  else
    let i := s.stepIdx + 1
    let s1 := { s with stepIdx := i }
    if i = 3 then { s1 with A := some (modPow (s1.g : Int) s1.a s1.p) }
    else if i = 5 then { s1 with B := some (modPow (s1.g : Int) s1.b s1.p) }
    else if i = 7 then
      let Bv := s1.B.getD (modPow (s1.g : Int) s1.b s1.p)
      { s1 with B := some Bv, sAlice := some (modPow (Bv : Int) s1.a s1.p) }
    else if i = 8 then
      let Av := s1.A.getD (modPow (s1.g : Int) s1.a s1.p)
      { s1 with A := some Av, sBob := some (modPow (Av : Int) s1.b s1.p) }
    else s1

/-- nextStep (line 346): re-validate silently; on failure report and stay
put, otherwise run one step of the switch. -/
def nextStep (inp : Inputs) (s : Session) : Session :=
  let v := validateParams false inp s
  if v.1 then advanceCore v.2
  else { v.2 with msg := "Perbaiki parameter terlebih dahulu." }

/-- prevStep (line 385): decrement the cursor, no-op at 0; Derived Values
are untouched. -/
def prevStep (s : Session) : Session :=
  if s.stepIdx ≤ 0 then s else { s with stepIdx := s.stepIdx - 1 }

/-- The verification predicate of step 9 (line 314 of renderSteps):
sAlice !== null && sBob !== null && sAlice === sBob. -/
def verifyOk (s : Session) : Bool :=
  match s.sAlice, s.sBob with
  | some x, some y => x == y
  | _, _ => false

/-- The default inputs of the page (23, 5, 6, 15). -/
def demoInputs : Inputs := ⟨"23", "5", "6", "15"⟩

/-- The initial module state (line 31-36): cursor 0, quadruple 23/5/6/15,
all Derived Values null, empty message. -/
def initSession : Session := ⟨0, 23, 5, 6, 15, none, none, none, none, ""⟩

lemma validateParams_false_snd (inp : Inputs) (s : Session)
    (h : (validateParams false inp s).1 = false) :
    (validateParams false inp s).2 = s := by
  unfold validateParams at h ⊢
  revert h
  rcases readInputs inp with e | ⟨P, G, Asec, Bsec⟩
  · intro h; rfl
  · intro h
    dsimp only at h ⊢
    simp only [Bool.false_eq_true, ite_false] at h ⊢
    split_ifs at h ⊢ <;> rfl

/-- When every validation check passes, validateParams false just installs
the parsed quadruple. -/
lemma validateParams_ok (inp : Inputs) (P G Asec Bsec : Nat)
    (hread : readInputs inp = Except.ok (P, G, Asec, Bsec))
    (hP3 : 3 ≤ P) (hPpr : isProbablePrime P = true)
    (hG1 : 1 < G) (hG2 : G < P)
    (hA1 : 2 ≤ Asec) (hA2 : Asec < P - 1)
    (hB1 : 2 ≤ Bsec) (hB2 : Bsec < P - 1) (s : Session) :
    validateParams false inp s
      = (true, { s with p := P, g := G, a := Asec, b := Bsec }) := by
  unfold validateParams
  rw [hread]
  dsimp only
  simp only [hPpr, Bool.not_true, Bool.false_eq_true, if_false,
    show ¬ (P < 3) from by omega,
    show ¬ (G ≤ 1 ∨ P ≤ G) from by omega,
    show ¬ (Asec < 2 ∨ P - 1 ≤ Asec) from by omega,
    show ¬ (Bsec < 2 ∨ P - 1 ≤ Bsec) from by omega,
    ite_false]

/-- C10: the input p = 2 is rejected by the dedicated lower-bound check
with its own message, distinct from the not-prime message, and the stored
parameters (and everything else in the session except the message box) are
untouched -- even though 2 is prime, both in the mathematical sense and for
the primality test of the source itself. -/
theorem validate_rejects_p_two (s : Session) :
    validateParams true ⟨"2", "5", "6", "15"⟩ s = (false, { s with msg := "p harus >= 3." })
    ∧ "p harus >= 3." ≠ "p tampaknya bukan prima."
    ∧ Nat.Prime 2 ∧ isProbablePrime 2 = true := by
  refine ⟨?_, by decide, Nat.prime_two, by decide⟩
  have h : readInputs ⟨"2", "5", "6", "15"⟩ = Except.ok (2, 5, 6, 15) := by rfl
  unfold validateParams
  rw [h]
  norm_num

/-- C5: when silent re-validation fails, nextStep only reports (message
"Perbaiki parameter terlebih dahulu.") and changes nothing else: the cursor,
the stored quadruple and all four Derived Values are exactly those of the
incoming session.  Concretely, with p = 15 (composite) validation reports
the not-prime RangeViolation, and stepping from the initial session leaves
A and B unpopulated and the cursor at 0. -/
theorem advance_validation_failure (inp : Inputs) (s : Session)
    (h : (validateParams false inp s).1 = false) :
    nextStep inp s = { s with msg := "Perbaiki parameter terlebih dahulu." }
    ∧ validateParams true ⟨"15", "5", "6", "13"⟩ initSession
        = (false, { initSession with msg := "p tampaknya bukan prima." })
    ∧ nextStep ⟨"15", "5", "6", "13"⟩ initSession
        = { initSession with msg := "Perbaiki parameter terlebih dahulu." }
    ∧ (nextStep ⟨"15", "5", "6", "13"⟩ initSession).stepIdx = 0
    ∧ (nextStep ⟨"15", "5", "6", "13"⟩ initSession).A = none
    ∧ (nextStep ⟨"15", "5", "6", "13"⟩ initSession).B = none := by
  refine ⟨?_, by decide, by decide, by decide, by decide, by decide⟩
  unfold nextStep
  simp only [h, validateParams_false_snd inp s h, Bool.false_eq_true, if_false]

/-- Witness for advance_validation_failure at the concrete composite input
p = 15 from the initial session. -/
theorem advance_validation_failure_witness :
    nextStep ⟨"15", "5", "6", "13"⟩ initSession
      = { initSession with msg := "Perbaiki parameter terlebih dahulu." } :=
  (advance_validation_failure ⟨"15", "5", "6", "13"⟩ initSession (by decide)).1

/-- Nine successive advance() calls. -/
def advance9 (inp : Inputs) (s : Session) : Session :=
  nextStep inp (nextStep inp (nextStep inp (nextStep inp (nextStep inp
    (nextStep inp (nextStep inp (nextStep inp (nextStep inp s))))))))

/-- C1: Diffie-Hellman correctness.  For every prime p and g, a, b in their
required ranges the two shared-secret computations agree, and in the
concrete scenario p=23, g=5, a=6, b=15 the derived values are A=8, B=19,
S_alice=2, S_bob=2, and after nine advances from the initial session the
step-9 verification predicate reports a match. -/
theorem dh_exchange_correct (p g a b : Nat) (hp : Nat.Prime p)
    (hg1 : 2 ≤ g) (hg2 : g ≤ p - 1) (ha1 : 2 ≤ a) (ha2 : a ≤ p - 2)
    (hb1 : 2 ≤ b) (hb2 : b ≤ p - 2) :
    modPow ((modPow (g : Int) a p : Nat) : Int) b p
      = modPow ((modPow (g : Int) b p : Nat) : Int) a p
    ∧ modPow (5 : Int) 6 23 = 8 ∧ modPow (5 : Int) 15 23 = 19
    ∧ modPow (19 : Int) 6 23 = 2 ∧ modPow (8 : Int) 15 23 = 2
    ∧ verifyOk (advance9 demoInputs initSession) = true :=
  ⟨modPow_modPow_comm g a b p hp.pos, by decide, by decide, by decide, by decide, by decide⟩

/-- Witness for dh_exchange_correct at the concrete scenario 23/5/6/15. -/
theorem dh_exchange_correct_witness :
    modPow ((modPow (5 : Int) 6 23 : Nat) : Int) 15 23
      = modPow ((modPow (5 : Int) 15 23 : Nat) : Int) 6 23 :=
  (dh_exchange_correct 23 5 6 15 (by norm_num) (by omega) (by omega) (by omega)
    (by omega) (by omega) (by omega)).1

/-- C3: from cursor 0 with a quadruple that validates from the input
fields, nine advance() calls reach cursor 9 with sAlice = sBob (both
computed), and one more advance() at cursor 9 leaves the session state
completely unchanged. -/
theorem stepper_nine_advances (inp : Inputs) (s0 : Session) (P G Asec Bsec : Nat)
    (hread : readInputs inp = Except.ok (P, G, Asec, Bsec))
    (hP3 : 3 ≤ P) (hPpr : isProbablePrime P = true)
    (hG1 : 1 < G) (hG2 : G < P)
    (hA1 : 2 ≤ Asec) (hA2 : Asec < P - 1)
    (hB1 : 2 ≤ Bsec) (hB2 : Bsec < P - 1)
    (hs0 : s0.stepIdx = 0) :
    (advance9 inp s0).stepIdx = 9
    ∧ (advance9 inp s0).sAlice = (advance9 inp s0).sBob
    ∧ (advance9 inp s0).sAlice.isSome = true
    ∧ nextStep inp (advance9 inp s0) = advance9 inp s0 := by
  have hval := validateParams_ok inp P G Asec Bsec hread hP3 hPpr hG1 hG2 hA1 hA2 hB1 hB2
  have hstep : ∀ s : Session, nextStep inp s
      = advanceCore { s with p := P, g := G, a := Asec, b := Bsec } := by
    intro s
    unfold nextStep
    rw [hval s]
    rfl
  have h0 : nextStep inp s0
      = ⟨1, P, G, Asec, Bsec, s0.A, s0.B, s0.sAlice, s0.sBob, s0.msg⟩ := by
    rw [hstep]; unfold advanceCore; simp [TOTAL_STEPS, hs0]
  have h1 : nextStep inp (⟨1, P, G, Asec, Bsec, s0.A, s0.B, s0.sAlice, s0.sBob, s0.msg⟩ : Session)
      = ⟨2, P, G, Asec, Bsec, s0.A, s0.B, s0.sAlice, s0.sBob, s0.msg⟩ := by
    rw [hstep]; unfold advanceCore; simp [TOTAL_STEPS]
  have h2 : nextStep inp (⟨2, P, G, Asec, Bsec, s0.A, s0.B, s0.sAlice, s0.sBob, s0.msg⟩ : Session)
      = ⟨3, P, G, Asec, Bsec, some (modPow (G : Int) Asec P), s0.B, s0.sAlice, s0.sBob, s0.msg⟩ := by
    rw [hstep]; unfold advanceCore; simp [TOTAL_STEPS]
  have h3 : nextStep inp (⟨3, P, G, Asec, Bsec, some (modPow (G : Int) Asec P), s0.B,
        s0.sAlice, s0.sBob, s0.msg⟩ : Session)
      = ⟨4, P, G, Asec, Bsec, some (modPow (G : Int) Asec P), s0.B, s0.sAlice, s0.sBob, s0.msg⟩ := by
    rw [hstep]; unfold advanceCore; simp [TOTAL_STEPS]
  have h4 : nextStep inp (⟨4, P, G, Asec, Bsec, some (modPow (G : Int) Asec P), s0.B,
        s0.sAlice, s0.sBob, s0.msg⟩ : Session)
      = ⟨5, P, G, Asec, Bsec, some (modPow (G : Int) Asec P), some (modPow (G : Int) Bsec P),
          s0.sAlice, s0.sBob, s0.msg⟩ := by
    rw [hstep]; unfold advanceCore; simp [TOTAL_STEPS]
  have h5 : nextStep inp (⟨5, P, G, Asec, Bsec, some (modPow (G : Int) Asec P),
        some (modPow (G : Int) Bsec P), s0.sAlice, s0.sBob, s0.msg⟩ : Session)
      = ⟨6, P, G, Asec, Bsec, some (modPow (G : Int) Asec P), some (modPow (G : Int) Bsec P),
          s0.sAlice, s0.sBob, s0.msg⟩ := by
    rw [hstep]; unfold advanceCore; simp [TOTAL_STEPS]
  have h6 : nextStep inp (⟨6, P, G, Asec, Bsec, some (modPow (G : Int) Asec P),
        some (modPow (G : Int) Bsec P), s0.sAlice, s0.sBob, s0.msg⟩ : Session)
      = ⟨7, P, G, Asec, Bsec, some (modPow (G : Int) Asec P), some (modPow (G : Int) Bsec P),
          some (modPow ((modPow (G : Int) Bsec P : Nat) : Int) Asec P), s0.sBob, s0.msg⟩ := by
    rw [hstep]; unfold advanceCore; simp [TOTAL_STEPS]
  have h7 : nextStep inp (⟨7, P, G, Asec, Bsec, some (modPow (G : Int) Asec P),
        some (modPow (G : Int) Bsec P),
        some (modPow ((modPow (G : Int) Bsec P : Nat) : Int) Asec P), s0.sBob, s0.msg⟩ : Session)
      = ⟨8, P, G, Asec, Bsec, some (modPow (G : Int) Asec P), some (modPow (G : Int) Bsec P),
          some (modPow ((modPow (G : Int) Bsec P : Nat) : Int) Asec P),
          some (modPow ((modPow (G : Int) Asec P : Nat) : Int) Bsec P), s0.msg⟩ := by
    rw [hstep]; unfold advanceCore; simp [TOTAL_STEPS]
  have h8 : nextStep inp (⟨8, P, G, Asec, Bsec, some (modPow (G : Int) Asec P),
        some (modPow (G : Int) Bsec P),
        some (modPow ((modPow (G : Int) Bsec P : Nat) : Int) Asec P),
        some (modPow ((modPow (G : Int) Asec P : Nat) : Int) Bsec P), s0.msg⟩ : Session)
      = ⟨9, P, G, Asec, Bsec, some (modPow (G : Int) Asec P), some (modPow (G : Int) Bsec P),
          some (modPow ((modPow (G : Int) Bsec P : Nat) : Int) Asec P),
          some (modPow ((modPow (G : Int) Asec P : Nat) : Int) Bsec P), s0.msg⟩ := by
    rw [hstep]; unfold advanceCore; simp [TOTAL_STEPS]
  have h9 : advance9 inp s0
      = ⟨9, P, G, Asec, Bsec, some (modPow (G : Int) Asec P), some (modPow (G : Int) Bsec P),
          some (modPow ((modPow (G : Int) Bsec P : Nat) : Int) Asec P),
          some (modPow ((modPow (G : Int) Asec P : Nat) : Int) Bsec P), s0.msg⟩ := by
    unfold advance9
    rw [h0, h1, h2, h3, h4, h5, h6, h7, h8]
  refine ⟨by rw [h9], ?_, by rw [h9]; rfl, ?_⟩
  · rw [h9]
    exact congrArg some (modPow_modPow_comm G Bsec Asec P (by omega))
  · rw [h9, hstep]
    unfold advanceCore
    simp [TOTAL_STEPS]

/-- Witness for stepper_nine_advances at the default inputs 23/5/6/15 from
the initial session. -/
theorem stepper_nine_advances_witness :
    (advance9 demoInputs initSession).stepIdx = 9
    ∧ (advance9 demoInputs initSession).sAlice = (advance9 demoInputs initSession).sBob :=
  by
  have h := stepper_nine_advances demoInputs initSession 23 5 6 15 (by rfl) (by decide)
    (by decide) (by decide) (by decide) (by decide) (by decide) (by decide) (by decide) (by decide)
  exact ⟨h.1, h.2.1⟩

/-! ### Instrumented stepper

nextStepC is nextStep with a ghost counter recording, for each Derived
Value, how many times the source executes a modPow assignment to it
(case 3 assigns A, case 5 assigns B, case 7 assigns B only when it is
still null and always assigns sAlice, case 8 symmetrically).  The session
component coincides with nextStep (lemma advanceCoreC_fst below), so the
counters are a faithful cost instrumentation of the source. -/
structure Counts where
  cA : Nat
  cB : Nat
  cS1 : Nat
  cS2 : Nat
deriving DecidableEq

def advanceCoreC (s : Session) (c : Counts) : Session × Counts :=
  if TOTAL_STEPS ≤ s.stepIdx then (s, c)
  else
    let i := s.stepIdx + 1
    let s1 := { s with stepIdx := i }
    if i = 3 then
      ({ s1 with A := some (modPow (s1.g : Int) s1.a s1.p) }, { c with cA := c.cA + 1 })
    else if i = 5 then
      ({ s1 with B := some (modPow (s1.g : Int) s1.b s1.p) }, { c with cB := c.cB + 1 })
    else if i = 7 then
      match s1.B with
      | none =>
        let Bv := modPow (s1.g : Int) s1.b s1.p
        ({ s1 with B := some Bv, sAlice := some (modPow (Bv : Int) s1.a s1.p) },
         { c with cB := c.cB + 1, cS1 := c.cS1 + 1 })
      | some Bv =>
        ({ s1 with B := some Bv, sAlice := some (modPow (Bv : Int) s1.a s1.p) },
         { c with cS1 := c.cS1 + 1 })
    else if i = 8 then
      match s1.A with
      | none =>
        let Av := modPow (s1.g : Int) s1.a s1.p
        ({ s1 with A := some Av, sBob := some (modPow (Av : Int) s1.b s1.p) },
         { c with cA := c.cA + 1, cS2 := c.cS2 + 1 })
      | some Av =>
        ({ s1 with A := some Av, sBob := some (modPow (Av : Int) s1.b s1.p) },
         { c with cS2 := c.cS2 + 1 })
    else (s1, c)

def nextStepC (inp : Inputs) (sc : Session × Counts) : Session × Counts :=
  let v := validateParams false inp sc.1
  if v.1 then advanceCoreC v.2 sc.2
  else ({ v.2 with msg := "Perbaiki parameter terlebih dahulu." }, sc.2)

def prevStepC (sc : Session × Counts) : Session × Counts :=
  (prevStep sc.1, sc.2)

/-- The instrumentation does not change the session component. -/
lemma advanceCoreC_fst (s : Session) (c : Counts) :
    (advanceCoreC s c).1 = advanceCore s := by
  unfold advanceCoreC advanceCore
  dsimp only
  by_cases h9 : TOTAL_STEPS ≤ s.stepIdx
  · simp [h9]
  · by_cases h3 : s.stepIdx + 1 = 3
    · simp [h9, h3]
    · by_cases h5 : s.stepIdx + 1 = 5
      · simp [h9, h3, h5]
      · by_cases h7 : s.stepIdx + 1 = 7
        · simp only [if_neg h9, if_neg h3, if_neg h5, if_pos h7]
          cases hB : s.B <;> simp [hB]
        · by_cases h8 : s.stepIdx + 1 = 8
          · simp only [if_neg h9, if_neg h3, if_neg h5, if_neg h7, if_pos h8]
            cases hA : s.A <;> simp [hA]
          · simp [h9, h3, h5, h7, h8]

lemma nextStepC_fst (inp : Inputs) (sc : Session × Counts) :
    (nextStepC inp sc).1 = nextStep inp sc.1 := by
  unfold nextStepC nextStep
  dsimp only
  by_cases hv : (validateParams false inp sc.1).1 = true
  · simp [hv, advanceCoreC_fst]
  · simp [hv]

/-- C4 counterexample: with the valid default inputs, the run
advance, advance, advance, retreat, advance (reaching step 3, backing up
to step 2, re-entering step 3) executes the modPow assignment to A twice,
so A is not computed exactly once per run: re-entering its owning step
after retreat() does recompute it (to the same value 8). -/
theorem derived_value_recomputed_after_retreat :
    (nextStepC demoInputs (prevStepC (nextStepC demoInputs (nextStepC demoInputs
        (nextStepC demoInputs (initSession, ⟨0, 0, 0, 0⟩)))))).2.cA = 2
    ∧ (nextStepC demoInputs (prevStepC (nextStepC demoInputs (nextStepC demoInputs
        (nextStepC demoInputs (initSession, ⟨0, 0, 0, 0⟩)))))).1.A = some 8
    ∧ ¬ (nextStepC demoInputs (prevStepC (nextStepC demoInputs (nextStepC demoInputs
        (nextStepC demoInputs (initSession, ⟨0, 0, 0, 0⟩)))))).2.cA = 1 := by
  refine ⟨by decide, by decide, by decide⟩

/-- Field behaviour of one advance step: each Derived Value that is
consistent with the current quadruple stays consistent, and a value that is
already present is never erased and never changed (the source may
re-execute the computing assignment, but deterministically writes the same
value back). -/
lemma advanceCore_fields (s : Session)
    (hA : s.A = none ∨ s.A = some (modPow (s.g : Int) s.a s.p))
    (hB : s.B = none ∨ s.B = some (modPow (s.g : Int) s.b s.p))
    (hS1 : s.sAlice = none ∨ s.sAlice
        = some (modPow ((modPow (s.g : Int) s.b s.p : Nat) : Int) s.a s.p))
    (hS2 : s.sBob = none ∨ s.sBob
        = some (modPow ((modPow (s.g : Int) s.a s.p : Nat) : Int) s.b s.p)) :
    ((advanceCore s).A = none ∨ (advanceCore s).A = some (modPow (s.g : Int) s.a s.p))
    ∧ ((advanceCore s).B = none ∨ (advanceCore s).B = some (modPow (s.g : Int) s.b s.p))
    ∧ ((advanceCore s).sAlice = none ∨ (advanceCore s).sAlice
        = some (modPow ((modPow (s.g : Int) s.b s.p : Nat) : Int) s.a s.p))
    ∧ ((advanceCore s).sBob = none ∨ (advanceCore s).sBob
        = some (modPow ((modPow (s.g : Int) s.a s.p : Nat) : Int) s.b s.p))
    ∧ (∀ v, s.A = some v → (advanceCore s).A = some v)
    ∧ (∀ v, s.B = some v → (advanceCore s).B = some v)
    ∧ (∀ v, s.sAlice = some v → (advanceCore s).sAlice = some v)
    ∧ (∀ v, s.sBob = some v → (advanceCore s).sBob = some v) := by
  unfold advanceCore
  dsimp only
  by_cases h9 : TOTAL_STEPS ≤ s.stepIdx
  · simp only [if_pos h9]
    exact ⟨hA, hB, hS1, hS2, fun v hv => hv, fun v hv => hv, fun v hv => hv, fun v hv => hv⟩
  · simp only [if_neg h9]
    by_cases h3 : s.stepIdx + 1 = 3
    · simp only [if_pos h3]
      refine ⟨Or.inr (by simp), hB, hS1, hS2, ?_, fun v hv => hv, fun v hv => hv, fun v hv => hv⟩
      intro v hv
      rcases hA with hA | hA
      · rw [hA] at hv; cases hv
      · rw [hA] at hv
        exact hv
    · simp only [if_neg h3]
      by_cases h5 : s.stepIdx + 1 = 5
      · simp only [if_pos h5]
        refine ⟨hA, Or.inr (by simp), hS1, hS2, fun v hv => hv, ?_, fun v hv => hv, fun v hv => hv⟩
        intro v hv
        rcases hB with hB | hB
        · rw [hB] at hv; cases hv
        · rw [hB] at hv
          exact hv
      · simp only [if_neg h5]
        by_cases h7 : s.stepIdx + 1 = 7
        · simp only [if_pos h7]
          have hBv : s.B.getD (modPow (s.g : Int) s.b s.p) = modPow (s.g : Int) s.b s.p := by
            rcases hB with hB | hB <;> rw [hB] <;> rfl
          refine ⟨hA, Or.inr (by rw [hBv]), Or.inr (by rw [hBv]), hS2,
            fun v hv => hv, ?_, ?_, fun v hv => hv⟩
          · intro v hv
            rw [hv]
            simp
          · intro v hv
            rw [hBv]
            rcases hS1 with hS1 | hS1
            · rw [hS1] at hv; cases hv
            · rw [hS1] at hv
              exact hv
        · simp only [if_neg h7]
          by_cases h8 : s.stepIdx + 1 = 8
          · simp only [if_pos h8]
            have hAv : s.A.getD (modPow (s.g : Int) s.a s.p) = modPow (s.g : Int) s.a s.p := by
              rcases hA with hA | hA <;> rw [hA] <;> rfl
            refine ⟨Or.inr (by rw [hAv]), hB, hS1, Or.inr (by rw [hAv]),
              ?_, fun v hv => hv, fun v hv => hv, ?_⟩
            · intro v hv
              rw [hv]
              simp
            · intro v hv
              rw [hAv]
              rcases hS2 with hS2 | hS2
              · rw [hS2] at hv; cases hv
              · rw [hS2] at hv
                exact hv
          · simp only [if_neg h8]
            exact ⟨hA, hB, hS1, hS2, fun v hv => hv, fun v hv => hv,
              fun v hv => hv, fun v hv => hv⟩

lemma prevStep_fields (s : Session) :
    (prevStep s).A = s.A ∧ (prevStep s).B = s.B ∧ (prevStep s).sAlice = s.sAlice
    ∧ (prevStep s).sBob = s.sBob := by
  unfold prevStep
  split_ifs <;> exact ⟨rfl, rfl, rfl, rfl⟩

/-- C4 (amended): with a validated quadruple in the input fields, each
Derived Value is populated only with its defining formula value, a value
that is already known is never changed and never erased by advance()
(re-entering steps 3/5/7/8 re-executes the assignment but deterministically
writes the same value back, and the defensive prerequisite computations of
steps 7/8 are skipped when the value is already known), and retreat()
leaves all four Derived Values untouched. -/
theorem derived_values_memoized (inp : Inputs) (s : Session) (P G Asec Bsec : Nat)
    (hread : readInputs inp = Except.ok (P, G, Asec, Bsec))
    (hP3 : 3 ≤ P) (hPpr : isProbablePrime P = true)
    (hG1 : 1 < G) (hG2 : G < P)
    (hA1 : 2 ≤ Asec) (hA2 : Asec < P - 1)
    (hB1 : 2 ≤ Bsec) (hB2 : Bsec < P - 1)
    (hA : s.A = none ∨ s.A = some (modPow (G : Int) Asec P))
    (hB : s.B = none ∨ s.B = some (modPow (G : Int) Bsec P))
    (hS1 : s.sAlice = none ∨ s.sAlice
        = some (modPow ((modPow (G : Int) Bsec P : Nat) : Int) Asec P))
    (hS2 : s.sBob = none ∨ s.sBob
        = some (modPow ((modPow (G : Int) Asec P : Nat) : Int) Bsec P)) :
    ((nextStep inp s).A = none ∨ (nextStep inp s).A = some (modPow (G : Int) Asec P))
    ∧ ((nextStep inp s).B = none ∨ (nextStep inp s).B = some (modPow (G : Int) Bsec P))
    ∧ ((nextStep inp s).sAlice = none ∨ (nextStep inp s).sAlice
        = some (modPow ((modPow (G : Int) Bsec P : Nat) : Int) Asec P))
    ∧ ((nextStep inp s).sBob = none ∨ (nextStep inp s).sBob
        = some (modPow ((modPow (G : Int) Asec P : Nat) : Int) Bsec P))
    ∧ (∀ v, s.A = some v → (nextStep inp s).A = some v)
    ∧ (∀ v, s.B = some v → (nextStep inp s).B = some v)
    ∧ (∀ v, s.sAlice = some v → (nextStep inp s).sAlice = some v)
    ∧ (∀ v, s.sBob = some v → (nextStep inp s).sBob = some v)
    ∧ (prevStep s).A = s.A ∧ (prevStep s).B = s.B
    ∧ (prevStep s).sAlice = s.sAlice ∧ (prevStep s).sBob = s.sBob := by
  have hval := validateParams_ok inp P G Asec Bsec hread hP3 hPpr hG1 hG2 hA1 hA2 hB1 hB2
  have hstep : nextStep inp s
      = advanceCore { s with p := P, g := G, a := Asec, b := Bsec } := by
    unfold nextStep
    rw [hval s]
    rfl
  have hfields := advanceCore_fields { s with p := P, g := G, a := Asec, b := Bsec }
    hA hB hS1 hS2
  obtain ⟨c1, c2, c3, c4, p1, p2, p3, p4⟩ := hfields
  have hprev := prevStep_fields s
  rw [hstep]
  exact ⟨c1, c2, c3, c4, p1, p2, p3, p4, hprev.1, hprev.2.1, hprev.2.2.1, hprev.2.2.2⟩

/-- Witness for derived_values_memoized at the default inputs from the
initial session (all Derived Values unknown). -/
theorem derived_values_memoized_witness :
    ((nextStep demoInputs initSession).A = none
      ∨ (nextStep demoInputs initSession).A = some (modPow ((5 : Nat) : Int) 6 23))
    ∧ (prevStep initSession).A = initSession.A := by
  have h := derived_values_memoized demoInputs initSession 23 5 6 15 (by rfl) (by decide)
    (by decide) (by decide) (by decide) (by decide) (by decide) (by decide) (by decide)
    (Or.inl rfl) (Or.inl rfl) (Or.inl rfl) (Or.inl rfl)
  exact ⟨h.1, h.2.2.2.2.2.2.2.2.1⟩

/-! ### SecureSampler (src/app.js lines 97-118)

The byte source crypto.getRandomValues is modelled as an oracle
stream : Nat -> Nat -> Nat giving the byte at (attempt index, byte index);
entries are reduced mod 256 because a Uint8Array can only hold bytes.  The
rejection loop can in principle run forever (if every masked draw is
rejected), so it carries a fuel argument and returns none on exhaustion;
the range property holds for every stream and every fuel. -/

def assembleBytes (bytes : Nat → Nat) (byteLen : Nat) : Nat :=
  (List.range byteLen).foldl (fun val i => val * 256 + bytes i % 256) 0

def randomBelowLoop (stream : Nat → Nat → Nat) (byteLen mask maxExclusive : Nat) :
    Nat → Nat → Option Nat
  | _, 0 => none
  | i, fuel + 1 =>
    let val := assembleBytes (stream i) byteLen &&& mask
    if val < maxExclusive then some val
    else randomBelowLoop stream byteLen mask maxExclusive (i + 1) fuel

def bitLenAux : Nat → Nat → Nat
  | 0, _ => 0
  | fuel + 1, n => if n = 0 then 0 else bitLenAux fuel (n / 2) + 1

/-- Number of binary digits of n (the length of toString(2) for n >= 1),
with structural fuel n, which dominates the number of halvings. -/
def bitLength (n : Nat) : Nat := bitLenAux n n

def randomBigIntBelow (stream : Nat → Nat → Nat) (fuel : Nat) (maxExclusive : Nat) : Option Nat :=
  if maxExclusive ≤ 0 then some 0
  else
    let bitLen := bitLength maxExclusive
    let byteLen := (bitLen + 7) / 8
    let mask := (1 <<< bitLen) - 1
    randomBelowLoop stream byteLen mask maxExclusive 0 fuel

def randomBigIntInRange (stream : Nat → Nat → Nat) (fuel : Nat) (mn mx : Nat) : Option Nat :=
  let swapped := if mx < mn then (mx, mn) else (mn, mx)
  let span := (swapped.2 - swapped.1) + 1
  (randomBigIntBelow stream fuel span).map (fun off => swapped.1 + off)

lemma randomBelowLoop_lt (stream : Nat → Nat → Nat) (byteLen mask maxExclusive : Nat) :
    ∀ i fuel v, randomBelowLoop stream byteLen mask maxExclusive i fuel = some v →
      v < maxExclusive := by
  intro i fuel
  induction fuel generalizing i with
  | zero => intro v hv; cases hv
  | succ fuel ih =>
    intro v hv
    unfold randomBelowLoop at hv
    dsimp only at hv
    split_ifs at hv with hlt
    · cases hv; exact hlt
    · exact ih (i + 1) v hv

/-- C9: for every byte stream and fuel, randomBigIntBelow only ever returns
values in [0, bound); at bound 0 it returns 0 immediately, independently of
the stream (no drawing); and randomBigIntInRange only ever returns values
in [min, max], swapping the endpoints first when given in reverse order. -/
theorem randomBigIntBelow_range (stream : Nat → Nat → Nat) (fuel bound : Nat)
    (hb : 0 < bound) :
    (∀ v, randomBigIntBelow stream fuel bound = some v → v < bound)
    ∧ (∀ stream2 : Nat → Nat → Nat, ∀ fuel2 : Nat, randomBigIntBelow stream2 fuel2 0 = some 0)
    ∧ (∀ mn mx v, randomBigIntInRange stream fuel mn mx = some v →
        min mn mx ≤ v ∧ v ≤ max mn mx) := by
  refine ⟨?_, ?_, ?_⟩
  · intro v hv
    unfold randomBigIntBelow at hv
    rw [if_neg (by omega)] at hv
    exact randomBelowLoop_lt _ _ _ _ _ _ _ hv
  · intro stream2 fuel2
    unfold randomBigIntBelow
    rw [if_pos (by omega)]
  · intro mn mx v hv
    unfold randomBigIntInRange at hv
    by_cases hswap : mx < mn
    · rw [if_pos hswap] at hv
      dsimp only at hv
      rcases Option.map_eq_some'.mp hv with ⟨off, hoff, hv2⟩
      have hlt : off < mn - mx + 1 := by
        by_cases hspan : 0 < mn - mx + 1
        · unfold randomBigIntBelow at hoff
          rw [if_neg (by omega)] at hoff
          exact randomBelowLoop_lt _ _ _ _ _ _ _ hoff
        · omega
      constructor
      · omega
      · omega
    · rw [if_neg hswap] at hv
      dsimp only at hv
      rcases Option.map_eq_some'.mp hv with ⟨off, hoff, hv2⟩
      have hlt : off < mx - mn + 1 := by
        unfold randomBigIntBelow at hoff
        rw [if_neg (by omega)] at hoff
        exact randomBelowLoop_lt _ _ _ _ _ _ _ hoff
      constructor
      · omega
      · omega

/-- Witness for randomBigIntBelow_range with the all-zero stream, fuel 1
and bound 5: the loop accepts the masked value 0 immediately (so 0 < 5 by
the range part), bound 0 returns 0 without drawing, and the in-range draw
for min 3, max 7 lands on 3, inside [3, 7]. -/
theorem randomBigIntBelow_range_witness :
    (0 : Nat) < 5
    ∧ randomBigIntBelow (fun _ _ => 0) 1 0 = some 0
    ∧ (min 3 7 ≤ 3 ∧ (3 : Nat) ≤ max 3 7) := by
  have h := randomBigIntBelow_range (fun _ _ => 0) 1 5 (by decide)
  exact ⟨h.1 0 (by decide), h.2.1 (fun _ _ => 0) 1, h.2.2 3 7 3 (by decide)⟩

/-! ### PrimeFactory: randomPrimeInRange (src/app.js lines 121-146)

The single randomBigIntInRange(minP, maxP) draw that seeds the scan is
modelled as an oracle argument cand; by theorem randomBigIntBelow_range it
always lies in the normalized [minP, maxP].  The bounded random scan has an
explicit iteration budget in the source (limit), which is the structural
fuel here; the fallback ascending scan recurses on its own guard. -/

def rpirScan (minP maxP : Nat) : Nat → Nat → Option Nat
  | _, 0 => none
  | candidate, fuel + 1 =>
    if isProbablePrime candidate then some candidate
    else
      let c1 := candidate + 2
      let c2 := if maxP < c1 then minP else c1
      rpirScan minP maxP c2 fuel

def rpirFallback (maxP : Nat) (n : Nat) : Option Nat :=
  if h : n ≤ maxP then
    if isProbablePrime n then some n else rpirFallback maxP (n + 2)
  else none
termination_by maxP + 1 - n
decreasing_by omega

def randomPrimeInRange (cand minP maxP : Nat) : Nat :=
  let maxP1 := if maxP < 5 then 5 else maxP
  let minP1 := if minP < 5 then 5 else minP
  let minP2 := if minP1 % 2 = 0 then minP1 + 1 else minP1
  let maxP2 := if maxP1 % 2 = 0 then maxP1 - 1 else maxP1
  let mm := if maxP2 < minP2 then (maxP2, minP2) else (minP2, maxP2)
  let candidate := if cand % 2 = 0 then cand + 1 else cand
  let limit := (mm.2 - mm.1) / 2 + 2
  match rpirScan mm.1 mm.2 candidate limit with
  | some c => c
  | none =>
    match rpirFallback mm.2 mm.1 with
    | some c => c
    | none => 101

/-! Certification that isProbablePrime implies genuine primality below 2000
(the demo prime range).  checkRange decides, by binary splitting so that the
kernel recursion stays shallow, that every n < 2000 accepted by
isProbablePrime has no nontrivial divisor below 45; since a composite
below 2025 = 45^2 always has one, acceptance implies primality there. -/

def noSmallDivisor (n : Nat) : Bool :=
  (List.range 45).all (fun d => decide (d < 2) || !(decide (d ∣ n)) || decide (d = n))

def checkOne (n : Nat) : Bool := !(isProbablePrime n) || noSmallDivisor n

def checkRange (fuel lo len : Nat) : Bool :=
  match fuel with
  | 0 => len == 0
  | fuel + 1 =>
    if len = 0 then true
    else if len = 1 then checkOne lo
    else checkRange fuel lo (len / 2) && checkRange fuel (lo + len / 2) (len - len / 2)

lemma checkRange_spec (fuel : Nat) :
    ∀ lo len, checkRange fuel lo len = true → ∀ k, k < len → checkOne (lo + k) = true := by
  induction fuel with
  | zero =>
    intro lo len h k hk
    simp [checkRange] at h
    omega
  | succ fuel ih =>
    intro lo len h k hk
    unfold checkRange at h
    split_ifs at h with h0 h1
    · omega
    · have hk0 : k = 0 := by omega
      subst hk0
      simpa using h
    · rw [Bool.and_eq_true] at h
      obtain ⟨ha, hb⟩ := h
      by_cases hcase : k < len / 2
      · exact ih lo (len / 2) ha k hcase
      · have hrec := ih (lo + len / 2) (len - len / 2) hb (k - len / 2) (by omega)
        have heq : lo + len / 2 + (k - len / 2) = lo + k := by omega
        rwa [heq] at hrec

lemma checkRange_2000 : checkRange 12 0 2000 = true := by decide

lemma checkOne_sound (n : Nat) (h : checkOne n = true) (hp : isProbablePrime n = true) :
    ∀ d, 2 ≤ d → d < 45 → d ∣ n → d = n := by
  intro d h2 h45 hdvd
  unfold checkOne at h
  rw [Bool.or_eq_true] at h
  rcases h with h | h
  · rw [hp] at h
    cases h
  · unfold noSmallDivisor at h
    rw [List.all_eq_true] at h
    have hd := h d (by rw [List.mem_range]; omega)
    simp only [Bool.or_eq_true, decide_eq_true_eq, Bool.not_eq_true', decide_eq_false_iff_not] at hd
    rcases hd with (hd | hd) | hd
    · omega
    · exact absurd hdvd hd
    · exact hd

lemma prime_of_no_small_divisor (n : Nat) (h2 : 2 ≤ n) (hlt : n < 2025)
    (h : ∀ d, 2 ≤ d → d < 45 → d ∣ n → d = n) : n.Prime := by
  by_contra hnp
  have hq := Nat.minFac_prime (show n ≠ 1 by omega)
  have hdvd := Nat.minFac_dvd n
  have hsq := Nat.minFac_sq_le_self (show 0 < n by omega) hnp
  have h2q : 2 ≤ n.minFac := hq.two_le
  have hlt45 : n.minFac < 45 := by
    by_contra hge
    push_neg at hge
    have hmul : 45 * 45 ≤ n.minFac * n.minFac := Nat.mul_le_mul hge hge
    rw [pow_two] at hsq
    omega
  have heq := h n.minFac h2q hlt45 hdvd
  exact hnp (Nat.prime_def_minFac.mpr ⟨h2, heq⟩)

lemma prime_of_isPP_lt2000 (n : Nat) (h2 : 2 ≤ n) (hn : n < 2000)
    (hp : isProbablePrime n = true) : n.Prime := by
  apply prime_of_no_small_divisor n h2 (by omega)
  intro d hd2 h45 hdvd
  have hco := checkRange_spec 12 0 2000 checkRange_2000 n hn
  rw [Nat.zero_add] at hco
  exact checkOne_sound n hco hp d hd2 h45 hdvd

lemma rpirScan_mem (minP maxP : Nat) (hodd1 : minP % 2 = 1) :
    ∀ fuel c, c % 2 = 1 → minP ≤ c → c ≤ maxP →
    ∀ r, rpirScan minP maxP c fuel = some r →
      r % 2 = 1 ∧ minP ≤ r ∧ r ≤ maxP ∧ isProbablePrime r = true := by
  intro fuel
  induction fuel with
  | zero => intro c _ _ _ r hr; cases hr
  | succ fuel ih =>
    intro c hcodd hc1 hc2 r hr
    unfold rpirScan at hr
    dsimp only at hr
    split_ifs at hr with hpp hwrap
    · cases hr
      exact ⟨hcodd, hc1, hc2, hpp⟩
    · exact ih minP hodd1 (le_refl minP) (by omega) r hr
    · exact ih (c + 2) (by omega) (by omega) (by omega) r hr

/-- C8: every value randomPrimeInRange(401, 2000) can return, whatever the
random draw (any seed candidate in the normalized range [401, 1999]), is an
odd prime within [401, 2000]: the bounds are normalized to the odd range
401..1999, the seeded odd scan only returns isProbablePrime-accepted values
inside that range (genuine primes below 2000), and the deterministic
fallback scan returns 401, which is prime, so the 101 last resort is
unreachable. -/
theorem randomPrimeInRange_demo (cand : Nat) (h1 : 401 ≤ cand) (h2 : cand ≤ 1999) :
    randomPrimeInRange cand 401 2000 % 2 = 1
    ∧ 401 ≤ randomPrimeInRange cand 401 2000
    ∧ randomPrimeInRange cand 401 2000 ≤ 2000
    ∧ Nat.Prime (randomPrimeInRange cand 401 2000) := by
  have hunfold : randomPrimeInRange cand 401 2000
      = (match rpirScan 401 1999 (if cand % 2 = 0 then cand + 1 else cand) 801 with
        | some c => c
        | none =>
          match rpirFallback 1999 401 with
          | some c => c
          | none => 101) := by
    unfold randomPrimeInRange
    norm_num
  set candidate := if cand % 2 = 0 then cand + 1 else cand with hcanddef
  have hcodd : candidate % 2 = 1 := by rw [hcanddef]; split_ifs with h <;> omega
  have hc1 : 401 ≤ candidate := by rw [hcanddef]; split_ifs <;> omega
  have hc2 : candidate ≤ 1999 := by rw [hcanddef]; split_ifs with h <;> omega
  rw [hunfold]
  rcases hscan : rpirScan 401 1999 candidate 801 with _ | c
  · have hfb : rpirFallback 1999 401 = some 401 := by
      unfold rpirFallback
      rw [dif_pos (by omega : (401 : Nat) ≤ 1999),
        if_pos (by decide : isProbablePrime 401 = true)]
    rw [hfb]
    dsimp only
    refine ⟨by omega, by omega, by omega, by norm_num⟩
  · dsimp only
    have hmem := rpirScan_mem 401 1999 (by omega) 801 candidate hcodd hc1 hc2 c hscan
    exact ⟨hmem.1, hmem.2.1, by omega, prime_of_isPP_lt2000 c (by omega) (by omega) hmem.2.2.2⟩

/-- Witness for randomPrimeInRange_demo at the draw 401: the scan accepts
401 itself, which is an odd prime in range. -/
theorem randomPrimeInRange_demo_witness :
    randomPrimeInRange 401 401 2000 % 2 = 1
    ∧ 401 ≤ randomPrimeInRange 401 401 2000
    ∧ randomPrimeInRange 401 401 2000 ≤ 2000
    ∧ Nat.Prime (randomPrimeInRange 401 401 2000) :=
  randomPrimeInRange_demo 401 (by omega) (by omega)

/-! ### primeFactorsDistinct (src/app.js lines 149-160)

Trial division: strip factors of 2, then odd trial divisors f = 3, 5, ...
while f * f <= x, finally push the remainder if it exceeds 1.  The odd
divisor is represented as 2 * k + 3 so that both loops terminate by
well-founded recursion on the same measures as the source (the source
diverges on input 0, which no caller can produce; the positivity guard in
stripTwos makes that one unreachable case return instead). -/

def stripTwos (out : List Nat) (x : Nat) : List Nat × Nat :=
  if h : 0 < x ∧ x % 2 = 0 then
    stripTwos (if out.contains 2 then out else out ++ [2]) (x / 2)
  else (out, x)
termination_by x
decreasing_by exact Nat.div_lt_self h.1 (by omega)

def factorLoop (out : List Nat) (x : Nat) (k : Nat) : List Nat × Nat :=
  if h : (2 * k + 3) * (2 * k + 3) ≤ x then
    if x % (2 * k + 3) = 0 then
      factorLoop (if out.contains (2 * k + 3) then out else out ++ [2 * k + 3])
        (x / (2 * k + 3)) k
    else factorLoop out x (k + 1)
  else (out, x)
termination_by (x, x - (2 * k + 3))
decreasing_by
  · exact Prod.Lex.left _ _ (Nat.div_lt_self (by nlinarith) (by omega))
  · refine Prod.Lex.right _ ?_
    have h1 : 2 * k + 3 < (2 * k + 3) * (2 * k + 3) := by nlinarith
    omega

def primeFactorsDistinct (n : Nat) : List Nat :=
  let s := stripTwos [] n
  let t := factorLoop s.1 s.2 0
  if 1 < t.2 then (if t.1.contains t.2 then t.1 else t.1 ++ [t.2]) else t.1

lemma mem_pushNew (out : List Nat) (a q : Nat) (h : q ∈ out ∨ q = a) :
    q ∈ (if out.contains a then out else out ++ [a]) := by
  rcases h with h | rfl
  · split_ifs with hc
    · exact h
    · exact List.mem_append_left _ h
  · split_ifs with hc
    · exact List.elem_iff.mp hc
    · exact List.mem_append_right _ (List.mem_singleton.mpr rfl)

lemma pushNew_sound (out : List Nat) (a q : Nat)
    (hq : q ∈ (if out.contains a then out else out ++ [a])) : q ∈ out ∨ q = a := by
  split_ifs at hq with hc
  · exact Or.inl hq
  · rcases List.mem_append.mp hq with h | h
    · exact Or.inl h
    · exact Or.inr (List.mem_singleton.mp h)

lemma stripTwos_spec (N : Nat) : ∀ out x, 0 < x → x ∣ N →
    (∀ q ∈ out, q.Prime ∧ q ∣ N) →
    (∀ q, q.Prime → q ∣ N → q ∈ out ∨ q ∣ x) →
    (∀ q ∈ (stripTwos out x).1, q.Prime ∧ q ∣ N)
    ∧ (∀ q, q.Prime → q ∣ N → q ∈ (stripTwos out x).1 ∨ q ∣ (stripTwos out x).2)
    ∧ 0 < (stripTwos out x).2 ∧ (stripTwos out x).2 ∣ N ∧ ¬ 2 ∣ (stripTwos out x).2 := by
  intro out x
  induction out, x using stripTwos.induct with
  | case1 out x h ih =>
    intro hx hdvd hsound hcomp
    rw [stripTwos, dif_pos h]
    have h2x : 2 ∣ x := Nat.dvd_of_mod_eq_zero h.2
    have h2N : 2 ∣ N := h2x.trans hdvd
    have hxx : x / 2 ∣ N := (Nat.div_dvd_of_dvd h2x).trans hdvd
    apply ih
    · exact Nat.div_pos (Nat.le_of_dvd h.1 h2x) (by omega)
    · exact hxx
    · intro q hq
      rcases pushNew_sound out 2 q hq with hmem | rfl
      · exact hsound q hmem
      · exact ⟨Nat.prime_two, h2N⟩
    · intro q hqp hqN
      rcases hcomp q hqp hqN with hmem | hdx
      · exact Or.inl (mem_pushNew out 2 q (Or.inl hmem))
      · by_cases hq2 : q = 2
        · exact Or.inl (mem_pushNew out 2 q (Or.inr hq2))
        · right
          have hx2 : x = 2 * (x / 2) := (Nat.mul_div_cancel' h2x).symm
          have hqmul : q ∣ 2 * (x / 2) := hx2 ▸ hdx
          rcases (Nat.Prime.dvd_mul hqp).mp hqmul with hq2d | hqx
          · exact absurd ((Nat.prime_dvd_prime_iff_eq hqp Nat.prime_two).mp hq2d) hq2
          · exact hqx
  | case2 out x h =>
    intro hx hdvd hsound hcomp
    rw [stripTwos, dif_neg h]
    refine ⟨hsound, hcomp, hx, hdvd, ?_⟩
    intro hc
    exact h ⟨hx, by omega⟩

lemma factorLoop_spec (N : Nat) : ∀ out x k, 0 < x → x ∣ N →
    (∀ q ∈ out, q.Prime ∧ q ∣ N) →
    (∀ q, q.Prime → q ∣ N → q ∈ out ∨ q ∣ x) →
    (∀ d, 2 ≤ d → d < 2 * k + 3 → ¬ d ∣ x) →
    (∀ q ∈ (factorLoop out x k).1, q.Prime ∧ q ∣ N)
    ∧ (∀ q, q.Prime → q ∣ N → q ∈ (factorLoop out x k).1 ∨ q ∣ (factorLoop out x k).2)
    ∧ 0 < (factorLoop out x k).2 ∧ (factorLoop out x k).2 ∣ N
    ∧ ((factorLoop out x k).2 = 1 ∨ ((factorLoop out x k).2).Prime) := by
  intro out x k
  induction out, x, k using factorLoop.induct with
  | case1 out x k h hdiv ih =>
    intro hx hdvd hsound hcomp hsmall
    rw [factorLoop, dif_pos h, if_pos hdiv]
    have hf2 : 2 ≤ 2 * k + 3 := by omega
    have hfx : (2 * k + 3) ∣ x := Nat.dvd_of_mod_eq_zero hdiv
    have hfprime : Nat.Prime (2 * k + 3) := by
      rw [Nat.prime_def_lt]
      refine ⟨hf2, ?_⟩
      intro m hm hmf
      by_contra hm1
      have hm0 : m ≠ 0 := by
        intro h0
        subst h0
        have h00 := Nat.eq_zero_of_zero_dvd hmf
        omega
      have hm2 : 2 ≤ m := by omega
      exact hsmall m hm2 hm (hmf.trans hfx)
    apply ih
    · exact Nat.div_pos (Nat.le_of_dvd hx hfx) (by omega)
    · exact (Nat.div_dvd_of_dvd hfx).trans hdvd
    · intro q hq
      rcases pushNew_sound out _ q hq with hmem | rfl
      · exact hsound q hmem
      · exact ⟨hfprime, hfx.trans hdvd⟩
    · intro q hqp hqN
      rcases hcomp q hqp hqN with hmem | hdx
      · exact Or.inl (mem_pushNew out _ q (Or.inl hmem))
      · by_cases hqf : q = 2 * k + 3
        · exact Or.inl (mem_pushNew out _ q (Or.inr hqf))
        · right
          have hxeq : x = (2 * k + 3) * (x / (2 * k + 3)) := (Nat.mul_div_cancel' hfx).symm
          have hqmul : q ∣ (2 * k + 3) * (x / (2 * k + 3)) := hxeq ▸ hdx
          rcases (Nat.Prime.dvd_mul hqp).mp hqmul with hqd | hqx
          · exact absurd ((Nat.prime_dvd_prime_iff_eq hqp hfprime).mp hqd) hqf
          · exact hqx
    · intro d hd2 hdlt hddvd
      exact hsmall d hd2 hdlt (hddvd.trans (Nat.div_dvd_of_dvd hfx))
  | case2 out x k h hdiv ih =>
    intro hx hdvd hsound hcomp hsmall
    rw [factorLoop, dif_pos h, if_neg hdiv]
    apply ih hx hdvd hsound hcomp
    intro d hd2 hdlt hddvd
    by_cases hcase : d < 2 * k + 3
    · exact hsmall d hd2 hcase hddvd
    · by_cases hdf : d = 2 * k + 3
      · subst hdf
        refine hdiv ?_
        rcases hddvd with ⟨c, rfl⟩
        exact Nat.mul_mod_right _ _
      · have hd4 : d = 2 * k + 4 := by omega
        subst hd4
        have h2d : (2 : Nat) ∣ 2 * k + 4 := ⟨k + 2, by ring⟩
        exact hsmall 2 (by omega) (by omega) (h2d.trans hddvd)
  | case3 out x k h =>
    intro hx hdvd hsound hcomp hsmall
    rw [factorLoop, dif_neg h]
    refine ⟨hsound, hcomp, hx, hdvd, ?_⟩
    by_cases hx1 : x = 1
    · exact Or.inl hx1
    · right
      by_contra hnp
      have hq := Nat.minFac_prime hx1
      have hdvdq := Nat.minFac_dvd x
      have hsq := Nat.minFac_sq_le_self hx hnp
      have h2q : 2 ≤ x.minFac := hq.two_le
      have hqlt : x.minFac < 2 * k + 3 := by
        by_contra hge
        push_neg at hge
        have hmul : (2 * k + 3) * (2 * k + 3) ≤ x.minFac * x.minFac := Nat.mul_le_mul hge hge
        rw [pow_two] at hsq
        omega
      exact hsmall x.minFac h2q hqlt hdvdq

/-- Soundness and completeness of primeFactorsDistinct: for positive n its
result is exactly the set of prime divisors of n. -/
lemma primeFactorsDistinct_spec (n : Nat) (hn : 0 < n) :
    (∀ q ∈ primeFactorsDistinct n, q.Prime ∧ q ∣ n)
    ∧ (∀ q, q.Prime → q ∣ n → q ∈ primeFactorsDistinct n) := by
  obtain ⟨hs1, hs2, hs3, hs4, hs5⟩ := stripTwos_spec n [] n hn dvd_rfl
    (by intro q hq; exact absurd hq (List.not_mem_nil q))
    (fun q _ hq => Or.inr hq)
  obtain ⟨hf1, hf2, hf3, hf4, hf5⟩ := factorLoop_spec n (stripTwos [] n).1 (stripTwos [] n).2 0
    hs3 hs4 hs1 hs2
    (by
      intro d hd2 hdlt hddvd
      have hd : d = 2 := by omega
      subst hd
      exact hs5 hddvd)
  unfold primeFactorsDistinct
  constructor
  · intro q hq
    dsimp only at hq
    split_ifs at hq with hx1 hc
    · exact hf1 q hq
    · rcases List.mem_append.mp hq with hmem | hmem
      · exact hf1 q hmem
      · have hqeq := List.mem_singleton.mp hmem
        subst hqeq
        rcases hf5 with h1 | hp
        · omega
        · exact ⟨hp, hf4⟩
    · exact hf1 q hq
  · intro q hqp hqn
    dsimp only
    rcases hf2 q hqp hqn with hmem | hdvd2
    · split_ifs with hx1 hc
      · exact hmem
      · exact List.mem_append_left _ hmem
      · exact hmem
    · rcases hf5 with h1 | hp
      · rw [h1] at hdvd2
        exact absurd (Nat.dvd_one.mp hdvd2) hqp.ne_one
      · have hqeq : q = (factorLoop (stripTwos [] n).1 (stripTwos [] n).2 0).2 :=
          (Nat.prime_dvd_prime_iff_eq hqp hp).mp hdvd2
        rw [if_pos hp.one_lt]
        exact mem_pushNew _ _ _ (Or.inr hqeq)

/-! ### GeneratorFinder: findGenerator (src/app.js lines 163-183)

The inner ok-loop over the distinct prime factors of phi is the acceptance
test checkCand; the random draws of randomBigIntInRange(2, p-2) are an
oracle draws : Nat -> Nat (attempt index to drawn value), constrained in
the theorem to the interval that randomBigIntInRange guarantees (theorem
randomBigIntBelow_range); the 64-attempt budget is the structural fuel, as
in the source. -/

def checkCand (p phi : Nat) (factors : List Nat) (gCand : Nat) : Bool :=
  factors.all (fun q => !(decide (modPow (gCand : Int) (phi / q) p = 1)))

def findGenRandom (draws : Nat → Nat) (p phi : Nat) (factors : List Nat) :
    Nat → Nat → Option Nat
  | _, 0 => none
  | attempt, remaining + 1 =>
    let gCand := draws attempt
    if checkCand p phi factors gCand then some gCand
    else findGenRandom draws p phi factors (attempt + 1) remaining

def findGenLinear (p phi : Nat) (factors : List Nat) (gCand : Nat) : Option Nat :=
  if h : gCand ≤ p - 2 then
    if checkCand p phi factors gCand then some gCand
    else findGenLinear p phi factors (gCand + 1)
  else none
termination_by p - 2 + 1 - gCand
decreasing_by omega

def findGenerator (draws : Nat → Nat) (p : Nat) : Nat :=
  let phi := p - 1
  let factors := primeFactorsDistinct phi
  match findGenRandom draws p phi factors 0 64 with
  | some g => g
  | none =>
    match findGenLinear p phi factors 2 with
    | some g => g
    | none => 2

lemma checkCand_iff (p phi : Nat) (factors : List Nat) (g : Nat) :
    checkCand p phi factors g = true ↔ ∀ q ∈ factors, modPow (g : Int) (phi / q) p ≠ 1 := by
  simp [checkCand, List.all_eq_true]

lemma modPow_eq_one_iff (g e p : Nat) (hp : 2 ≤ p) :
    (modPow (g : Int) e p = 1) ↔ ((g : ZMod p)) ^ e = 1 := by
  rw [modPow_nat g e p (by omega)]
  have hcast : ((g : ZMod p)) ^ e = 1 ↔ Nat.ModEq p (g ^ e) 1 := by
    rw [← Nat.cast_pow, show ((1 : ZMod p)) = ((1 : Nat) : ZMod p) by norm_cast,
      ZMod.natCast_eq_natCast_iff]
  rw [hcast]
  unfold Nat.ModEq
  rw [Nat.mod_eq_of_lt (show 1 < p by omega)]

lemma orderOf_of_check (p g : Nat) (hp : Nat.Prime p) (hp3 : 3 ≤ p)
    (hg1 : 1 ≤ g) (hg2 : g ≤ p - 1)
    (hcheck : ∀ q ∈ primeFactorsDistinct (p - 1), modPow (g : Int) ((p - 1) / q) p ≠ 1) :
    orderOf ((g : ZMod p)) = p - 1 := by
  haveI : Fact p.Prime := ⟨hp⟩
  have hgne : ((g : Nat) : ZMod p) ≠ 0 := by
    intro h0
    have hdvd := (ZMod.natCast_zmod_eq_zero_iff_dvd g p).mp h0
    have := Nat.le_of_dvd (by omega) hdvd
    omega
  apply orderOf_eq_of_pow_and_pow_div_prime (show 0 < p - 1 by omega)
    (ZMod.pow_card_sub_one_eq_one hgne)
  intro q hqp hqdvd
  have hqmem := (primeFactorsDistinct_spec (p - 1) (by omega)).2 q hqp hqdvd
  intro heq
  exact hcheck q hqmem ((modPow_eq_one_iff g _ p (by omega)).mpr heq)

lemma exists_generator_in_range (p : Nat) (hp : Nat.Prime p) (hp5 : 5 ≤ p) :
    ∃ g : Nat, 2 ≤ g ∧ g ≤ p - 2 ∧
      ∀ q ∈ primeFactorsDistinct (p - 1), modPow (g : Int) ((p - 1) / q) p ≠ 1 := by
  haveI : Fact p.Prime := ⟨hp⟩
  obtain ⟨u, hu⟩ := IsCyclic.exists_generator (α := (ZMod p)ˣ)
  have horder : orderOf u = p - 1 := by
    rw [orderOf_eq_card_of_forall_mem_zpowers hu, Nat.card_eq_fintype_card,
      ZMod.card_units_eq_totient, Nat.totient_prime hp]
  have hgcast : (((u : ZMod p).val : Nat) : ZMod p) = (u : ZMod p) := by
    rw [ZMod.natCast_val, ZMod.cast_id]
  have hvlt : (u : ZMod p).val < p := ZMod.val_lt _
  have hne0 : (u : ZMod p).val ≠ 0 := by
    intro h0
    apply Units.ne_zero u
    rw [← hgcast, h0, Nat.cast_zero]
  have hne1 : (u : ZMod p).val ≠ 1 := by
    intro h1
    have hu1 : (u : ZMod p) = 1 := by rw [← hgcast, h1, Nat.cast_one]
    have hueq : u = 1 := Units.val_eq_one.mp hu1
    rw [hueq] at horder
    simp at horder
    omega
  have hnep : (u : ZMod p).val ≠ p - 1 := by
    intro hpm
    have hcastpm : ((p - 1 : Nat) : ZMod p) = -1 := by
      rw [Nat.cast_sub (show 1 ≤ p by omega), ZMod.natCast_self, Nat.cast_one]
      ring
    have hu1 : (u : ZMod p) = -1 := by rw [← hgcast, hpm, hcastpm]
    have hsq : u ^ 2 = 1 := by
      apply Units.val_eq_one.mp
      rw [Units.val_pow_eq_pow_val, hu1]
      ring
    have hdvd := orderOf_dvd_of_pow_eq_one hsq
    rw [horder] at hdvd
    have hle2 := Nat.le_of_dvd (by omega) hdvd
    omega
  refine ⟨(u : ZMod p).val, by omega, by omega, ?_⟩
  intro q hq heq
  obtain ⟨hqprime, hqdvd⟩ := (primeFactorsDistinct_spec (p - 1) (by omega)).1 q hq
  rw [modPow_eq_one_iff _ _ p (by omega), hgcast] at heq
  have hunits : u ^ ((p - 1) / q) = 1 := by
    apply Units.val_eq_one.mp
    rw [Units.val_pow_eq_pow_val, heq]
  have hdvd := orderOf_dvd_of_pow_eq_one hunits
  rw [horder] at hdvd
  have h2q : 2 ≤ q := hqprime.two_le
  have hlow : 0 < (p - 1) / q := Nat.div_pos (Nat.le_of_dvd (by omega) hqdvd) (by omega)
  have hup : (p - 1) / q < p - 1 := Nat.div_lt_self (by omega) (by omega)
  have hle := Nat.le_of_dvd hlow hdvd
  omega

lemma findGenRandom_sound (draws : Nat → Nat) (p phi : Nat) (factors : List Nat) :
    ∀ attempt remaining g, findGenRandom draws p phi factors attempt remaining = some g →
      (∃ k, g = draws k) ∧ checkCand p phi factors g = true := by
  intro attempt remaining
  induction remaining generalizing attempt with
  | zero => intro g hg; cases hg
  | succ r ih =>
    intro g hg
    unfold findGenRandom at hg
    dsimp only at hg
    split_ifs at hg with hc
    · cases hg
      exact ⟨⟨attempt, rfl⟩, hc⟩
    · exact ih (attempt + 1) g hg

lemma findGenLinear_sound (p phi : Nat) (factors : List Nat) :
    ∀ lo g, findGenLinear p phi factors lo = some g →
      lo ≤ g ∧ g ≤ p - 2 ∧ checkCand p phi factors g = true := by
  intro lo
  induction lo using findGenLinear.induct p phi factors with
  | case1 lo h hc =>
    intro g hg
    rw [findGenLinear, dif_pos h, if_pos hc] at hg
    cases hg
    exact ⟨le_refl _, h, hc⟩
  | case2 lo h hc ih =>
    intro g hg
    rw [findGenLinear, dif_pos h, if_neg hc] at hg
    have := ih g hg
    exact ⟨by omega, this.2.1, this.2.2⟩
  | case3 lo h =>
    intro g hg
    rw [findGenLinear, dif_neg h] at hg
    cases hg

lemma findGenLinear_complete (p phi : Nat) (factors : List Nat) (g : Nat)
    (hg2 : g ≤ p - 2) (hc : checkCand p phi factors g = true) :
    ∀ d lo, lo ≤ g → g - lo ≤ d → ∃ r, findGenLinear p phi factors lo = some r := by
  intro d
  induction d with
  | zero =>
    intro lo h1 hd
    have hlg : lo = g := by omega
    subst hlg
    rw [findGenLinear, dif_pos (by omega), if_pos hc]
    exact ⟨lo, rfl⟩
  | succ d ih =>
    intro lo h1 hd
    rw [findGenLinear, dif_pos (by omega : lo ≤ p - 2)]
    by_cases hclo : checkCand p phi factors lo = true
    · rw [if_pos hclo]
      exact ⟨lo, rfl⟩
    · rw [if_neg hclo]
      have hne : lo ≠ g := fun he => hclo (he ▸ hc)
      exact ih (lo + 1) (by omega) (by omega)

lemma pfd_two : primeFactorsDistinct 2 = [2] := by
  have h1 : stripTwos [] 2 = ([2], 1) := by
    rw [stripTwos, dif_pos (by omega)]
    rw [stripTwos, dif_neg (by omega)]
    rfl
  have h2 : factorLoop [2] 1 0 = ([2], 1) := by
    rw [factorLoop, dif_neg (by omega)]
  unfold primeFactorsDistinct
  rw [h1]
  dsimp only
  rw [h2]
  norm_num

/-- C7: for every prime p at least 3 and every possible sequence of random
draws (each in the interval that randomBigIntInRange(2, p-2) guarantees),
the g returned by findGenerator passes the factor-quotient test for every
distinct prime factor q of p-1, and consequently its multiplicative order
modulo p is exactly p - 1. -/
theorem findGenerator_order (p : Nat) (draws : Nat → Nat) (hp : Nat.Prime p) (hp3 : 3 ≤ p)
    (hdraws : ∀ k, min 2 (p - 2) ≤ draws k ∧ draws k ≤ max 2 (p - 2)) :
    (∀ q ∈ primeFactorsDistinct (p - 1),
        modPow ((findGenerator draws p : Nat) : Int) ((p - 1) / q) p ≠ 1)
    ∧ orderOf (((findGenerator draws p : Nat) : ZMod p)) = p - 1 := by
  have key : ∀ g : Nat, 1 ≤ g → g ≤ p - 1 →
      checkCand p (p - 1) (primeFactorsDistinct (p - 1)) g = true →
      (∀ q ∈ primeFactorsDistinct (p - 1), modPow (g : Int) ((p - 1) / q) p ≠ 1)
      ∧ orderOf ((g : ZMod p)) = p - 1 := by
    intro g h1 h2 hc
    have hcheck := (checkCand_iff p (p - 1) _ g).mp hc
    exact ⟨hcheck, orderOf_of_check p g hp hp3 h1 h2 hcheck⟩
  unfold findGenerator
  dsimp only
  rcases hrand : findGenRandom draws p (p - 1) (primeFactorsDistinct (p - 1)) 0 64 with _ | g
  · rcases hlin : findGenLinear p (p - 1) (primeFactorsDistinct (p - 1)) 2 with _ | g
    · dsimp only
      by_cases hp5 : 5 ≤ p
      · exfalso
        obtain ⟨g0, hg1, hg2, hg3⟩ := exists_generator_in_range p hp hp5
        obtain ⟨r, hr⟩ := findGenLinear_complete p (p - 1) (primeFactorsDistinct (p - 1)) g0 hg2
          ((checkCand_iff _ _ _ _).mpr hg3) (g0 - 2) 2 hg1 (le_refl _)
        rw [hr] at hlin
        cases hlin
      · have hp3e : p = 3 := by
          have h34 : p = 3 ∨ p = 4 := by omega
          rcases h34 with h | h
          · exact h
          · subst h
            exact absurd hp (by norm_num)
        subst hp3e
        exact key 2 (by omega) (by omega)
          (by rw [show (3 : Nat) - 1 = 2 from rfl, pfd_two]; decide)
    · dsimp only
      have hsound := findGenLinear_sound p (p - 1) (primeFactorsDistinct (p - 1)) 2 g hlin
      exact key g (by omega) (by omega) hsound.2.2
  · dsimp only
    obtain ⟨⟨k, hk⟩, hcheck⟩ :=
      findGenRandom_sound draws p (p - 1) (primeFactorsDistinct (p - 1)) 0 64 g hrand
    obtain ⟨hr1, hr2⟩ := hdraws k
    by_cases hp5 : 5 ≤ p
    · exact key g (by omega) (by omega) hcheck
    · have hp3e : p = 3 := by
        have h34 : p = 3 ∨ p = 4 := by omega
        rcases h34 with h | h
        · exact h
        · subst h
          exact absurd hp (by norm_num)
      subst hp3e
      have hg12 : g = 1 ∨ g = 2 := by
        rw [hk]
        omega
      rcases hg12 with hg | hg
      · subst hg
        rw [show (3 : Nat) - 1 = 2 from rfl, pfd_two] at hcheck
        exact absurd hcheck (by decide)
      · subst hg
        exact key 2 (by omega) (by omega)
          (by rw [show (3 : Nat) - 1 = 2 from rfl, pfd_two]; decide)

/-- Witness for findGenerator_order at p = 5 with the constant draw 2: the
first random attempt accepts 2, whose order modulo 5 is 4. -/
theorem findGenerator_order_witness :
    (∀ q ∈ primeFactorsDistinct (5 - 1),
        modPow ((findGenerator (fun _ => 2) 5 : Nat) : Int) ((5 - 1) / q) 5 ≠ 1)
    ∧ orderOf (((findGenerator (fun _ => 2) 5 : Nat) : ZMod 5)) = 5 - 1 :=
  findGenerator_order 5 (fun _ => 2) (by norm_num) (by omega)
    (fun _ => ⟨by norm_num, by norm_num⟩)
